import Mathlib

set_option maxHeartbeats 1000000

/-! Shallow embedding of the PageRank solvers of this repository:
`page_rank` from src/IR/Assignment2/pr.py and `build_incoming_links`,
`build_topic_vector`, `topic_pagerank` from src/IR/Assignment5/topic_pagerank.py.

Node identifiers are strings; a Python dict of outbound adjacency lists is an
association list in insertion order. Python floats are modelled as exact
rationals. A dict whose key set is fixed during a phase is modelled as a total
function that is only ever consulted at its keys. A Python exception escaping a
function (KeyError on a missing `new_ranks` key, RuntimeError from mutating a
dict while iterating over it) is modelled as `none`; functions that can mutate
their `graph` argument additionally return the final state of that argument. -/

abbrev Node := String

abbrev Graph := List (Node × List Node)

/-- Keys of a graph dict, in insertion order (`list(graph.keys())`). -/
def gkeys (g : Graph) : List Node := g.map Prod.fst

/-- Dict lookup: the binding of a key, if present. -/
def glookup : Graph → Node → Option (List Node)
  | [], _ => none
  | e :: rest, n => if e.1 = n then some e.2 else glookup rest n

/-- Python `graph.get(n, [])`. -/
def getOuts (g : Graph) (n : Node) : List Node := (glookup g n).getD []

/-- Pointwise update of a function, modelling one dict write. -/
def updFn {α : Type} (f : Node → α) (x : Node) (v : α) : Node → α :=
  fun y => if y = x then v else f y

/-- Sum of a rational-valued function over a list of nodes. -/
def sumOver (l : List Node) (f : Node → ℚ) : ℚ := (l.map f).sum

/-! ### Classic solver, src/IR/Assignment2/pr.py -/

/-- Inner loop of pr.py Step 2 for a page with outbound links: every occurrence
of a target receives `damping * share`; reading `new_ranks[linked_page]` for a
target that is not a key raises KeyError, modelled as `none`. -/
def distribLinks (dmp share : ℚ) (ks : List Node) : List Node → (Node → ℚ) → Option (Node → ℚ)
  | [], nr => some nr
  | l :: rest, nr =>
    if l ∈ ks then distribLinks dmp share ks rest (updFn nr l (nr l + dmp * share))
    else none

/-- pr.py Step 2, dangling branch: the page's rank is spread evenly over every
page of the graph. -/
def distribDangling (dmp share : ℚ) (ks : List Node) (nr : Node → ℚ) : Node → ℚ :=
  ks.foldl (fun acc p => updFn acc p (acc p + dmp * share)) nr

/-- pr.py Step 2: one pass over `graph.items()`, distributing the previous
ranks through outbound links. -/
def classicDistribute (dmp : ℚ) (N : ℕ) (ranks : Node → ℚ) (ks : List Node) :
    Graph → (Node → ℚ) → Option (Node → ℚ)
  | [], nr => some nr
  | (page, links) :: rest, nr =>
    if links = [] then
      classicDistribute dmp N ranks ks rest (distribDangling dmp (ranks page / (N : ℚ)) ks nr)
    else
      match distribLinks dmp (ranks page / (links.length : ℚ)) ks links nr with
      | none => none
      | some nr2 => classicDistribute dmp N ranks ks rest nr2

/-- One iteration body of pr.py's loop: Step 1 initialises every page to the
random-jump base `(1 - d)/N`, Step 2 distributes the previous ranks. -/
def classicStep (g : Graph) (dmp : ℚ) (ranks : Node → ℚ) : Option (Node → ℚ) :=
  classicDistribute dmp g.length ranks (gkeys g) g (fun _ => (1 - dmp) / (g.length : ℚ))

/-- pr.py's iteration loop with the early convergence exit; the first argument
is the remaining iteration budget. -/
def classicLoop (g : Graph) (dmp tol : ℚ) : ℕ → (Node → ℚ) → Option (Node → ℚ)
  | 0, ranks => some ranks
  | fuel + 1, ranks =>
    match classicStep g dmp ranks with
    | none => none
    | some nr =>
      if ((gkeys g).map (fun p => |nr p - ranks p|)).sum < tol then some nr
      else classicLoop g dmp tol fuel nr

/-- `page_rank(graph, damping_factor, max_iterations, tolerance)` from
src/IR/Assignment2/pr.py. The returned dict is listed in key order; `none`
models an escaped KeyError. -/
def page_rank (g : Graph) (damping_factor : ℚ) (max_iterations : ℕ) (tolerance : ℚ) :
    Option (List (Node × ℚ)) :=
  (classicLoop g damping_factor tolerance max_iterations (fun _ => 1 / (g.length : ℚ))).map
    (fun r => (gkeys g).map (fun p => (p, r p)))

/-! ### Topic-specific solver, src/IR/Assignment5/topic_pagerank.py -/

/-- Body of the inner loop of `build_incoming_links` for one source page:
each occurrence of a destination appends `src` to `incoming[dst]`; a
destination that is not yet a key is added to `incoming` and, via
`graph.setdefault(dst, [])`, to the graph (dict insertion appends the key). -/
def bilEntry (src : Node) : List Node → (Node → List Node) → List Node → Graph →
    ((Node → List Node) × List Node × Graph)
  | [], inc, ik, g => (inc, ik, g)
  | dst :: rest, inc, ik, g =>
    if dst ∈ ik then bilEntry src rest (updFn inc dst (inc dst ++ [src])) ik g
    else bilEntry src rest (updFn inc dst (inc dst ++ [src])) (ik ++ [dst]) (g ++ [(dst, [])])

/-- The outer loop of `build_incoming_links` over `graph.items()`. CPython's
dict iterator raises RuntimeError at its next call after the dict changed size,
so after any entry whose processing inserted a key the traversal aborts with
`none`; the (already mutated) graph is returned alongside. -/
def bilGo : List (Node × List Node) → (Node → List Node) → List Node → Graph →
    Option (Node → List Node) × Graph
  | [], inc, _, g => (some inc, g)
  | (src, outs) :: rest, inc, ik, g =>
    match bilEntry src outs inc ik g with
    | (inc2, ik2, g2) =>
      if g2.length = g.length then bilGo rest inc2 ik2 g2 else (none, g2)

/-- `build_incoming_links(graph)` from src/IR/Assignment5/topic_pagerank.py:
the reverse adjacency index plus `list(graph.keys())`, with the final graph
state made explicit. -/
def build_incoming_links (g : Graph) : Option ((Node → List Node) × List Node) × Graph :=
  match bilGo g (fun _ => []) (gkeys g) g with
  | (some inc, g2) => (some (inc, gkeys g2), g2)
  | (none, g2) => (none, g2)

/-- The `rank_sum` accumulation over `incoming.get(p, [])` with the
`out_degree.get(q, 0) > 0` guard. -/
def rankSumFold (inc : Node → List Node) (degGet : Node → ℕ) (ranks : Node → ℚ) (p : Node) : ℚ :=
  (inc p).foldl (fun s q => if 0 < degGet q then s + ranks q / (degGet q : ℚ) else s) 0

/-- `out_degree.get(q, 0)`: the out-degree dict cached over the original nodes
before the loop starts. -/
def degGetOf (g : Graph) (q : Node) : ℕ := if q ∈ gkeys g then (getOuts g q).length else 0

/-- `dangling_sum`: total rank sitting on nodes of zero cached out-degree. -/
def danglingSum (nodes : List Node) (degGet : Node → ℕ) (ranks : Node → ℚ) : ℚ :=
  sumOver (nodes.filter (fun n => degGet n == 0)) ranks

/-- The `new_ranks` function one iteration of `topic_pagerank` builds:
teleportation base plus damped in-link and dangling contributions. -/
def tprNewRanks (vf : Node → ℚ) (dmp : ℚ) (degGet : Node → ℕ) (inc : Node → List Node)
    (dang : ℚ) (ranks : Node → ℚ) : Node → ℚ :=
  fun p => (1 - dmp) * vf p + dmp * (rankSumFold inc degGet ranks p + dang * vf p)

/-- The iteration loop of `topic_pagerank`; `build_incoming_links` is
recomputed every iteration and may mutate the graph and then raise. -/
def tprLoop (nodes : List Node) (vf : Node → ℚ) (dmp tol : ℚ) (degGet : Node → ℕ) :
    ℕ → (Node → ℚ) → Graph → Option (Node → ℚ) × Graph
  | 0, ranks, g => (some ranks, g)
  | fuel + 1, ranks, g =>
    let dang := danglingSum nodes degGet ranks
    match build_incoming_links g with
    | (none, g2) => (none, g2)
    | (some (inc, _), g2) =>
      let nr := tprNewRanks vf dmp degGet inc dang ranks
      if (nodes.map (fun n => |nr n - ranks n|)).sum < tol then (some nr, g2)
      else tprLoop nodes vf dmp tol degGet fuel nr g2

/-- Final block of `topic_pagerank`: normalize the ranks by their sum when that
sum is positive, and list the dict in key order. -/
def finalizeRanks (nodes : List Node) (r : Node → ℚ) : List (Node × ℚ) :=
  let s := sumOver nodes r
  let final := if 0 < s then fun n => r n / s else r
  nodes.map (fun n => (n, final n))

/-- `topic_pagerank(graph, pages, topic_vector, damping, tol, max_iter)` from
src/IR/Assignment5/topic_pagerank.py; the `pages` argument is unused by the
source function. `topic_vector.get(p, 0.0)` is modelled by the total function
`vf`. Returns the rank dict (`none` for an escaped exception) together with
the final state of the graph argument. -/
def topic_pagerank (g : Graph) (pages : List (Node × String × String)) (vf : Node → ℚ)
    (dmp tol : ℚ) (max_iter : ℕ) : Option (List (Node × ℚ)) × Graph :=
  let nodes := gkeys g
  match tprLoop nodes vf dmp tol (degGetOf g) max_iter (fun _ => 1 / (nodes.length : ℚ)) g with
  | (none, g2) => (none, g2)
  | (some r, g2) => (some (finalizeRanks nodes r), g2)

/-! ### Teleportation vector builder, src/IR/Assignment5/topic_pagerank.py -/

/-- Lower-casing character by character, modelling `str.lower()`. -/
def lowerStr (s : String) : String := String.mk (s.data.map Char.toLower)

/-- The needle list heads the hay list. -/
def leadsWith : List Char → List Char → Bool
  | [], _ => true
  | _ :: _, [] => false
  | a :: as, b :: bs => a == b && leadsWith as bs

/-- The needle occurs contiguously in the hay (Python `needle in hay` on str). -/
def occursIn (needle : List Char) : List Char → Bool
  | [] => leadsWith needle []
  | c :: t => leadsWith needle (c :: t) || occursIn needle t

/-- Raw relevance weight of one page entry `(pid, title, content)`: 1.0 when
any lowered keyword occurs in the lowered "title content" text, else 0.0. -/
def topicWeight (topic_keywords : List String) (e : Node × String × String) : ℚ :=
  if (topic_keywords.map lowerStr).any
      (fun k => occursIn k.data (lowerStr (e.2.1 ++ " " ++ e.2.2)).data) then 1 else 0

/-- `build_topic_vector(pages, topic_keywords)` from
src/IR/Assignment5/topic_pagerank.py: normalized relevance weights, falling
back to the uniform vector when no page matches. -/
def build_topic_vector (pages : List (Node × String × String)) (topic_keywords : List String) :
    List (Node × ℚ) :=
  let total := (pages.map (topicWeight topic_keywords)).sum
  if total = 0 then pages.map (fun e => (e.1, 1 / (pages.length : ℚ)))
  else pages.map (fun e => (e.1, topicWeight topic_keywords e / total))

/-! ### Derived specification-level notions -/

/-- Reverse adjacency of a graph as a pure function: the sources linking to
`p`, one occurrence per edge occurrence, in graph order. -/
def incSpec (g : Graph) (p : Node) : List Node :=
  g.foldr (fun e acc => List.replicate (e.2.count p) e.1 ++ acc) []

/-- A graph is closed when every link target is itself a key. -/
abbrev ClosedGraph (g : Graph) : Prop := ∀ e ∈ g, ∀ t ∈ e.2, t ∈ gkeys g

/-- Per-entry contribution of pr.py's Step 2 to page `p`, with multiplicity:
a dangling page gives every page `rank/N`, a linking page gives
`rank/outDegree` once per occurrence of `p` among its links. -/
def classicContrib (ks : List Node) (N : ℕ) (ranks : Node → ℚ) (p : Node)
    (e : Node × List Node) : ℚ :=
  if e.2 = [] then (ks.count p : ℚ) * (ranks e.1 / (N : ℚ))
  else (e.2.count p : ℚ) * (ranks e.1 / (e.2.length : ℚ))

/-- Closed form of one classic iteration. -/
def classicStepPure (g : Graph) (dmp : ℚ) (ranks : Node → ℚ) : Node → ℚ :=
  fun p => (1 - dmp) / (g.length : ℚ) +
    (g.map (fun e => dmp * classicContrib (gkeys g) g.length ranks p e)).sum

/-- Pure form of pr.py's loop. -/
def classicLoopPure (g : Graph) (dmp tol : ℚ) : ℕ → (Node → ℚ) → (Node → ℚ)
  | 0, ranks => ranks
  | fuel + 1, ranks =>
    let nr := classicStepPure g dmp ranks
    if ((gkeys g).map (fun p => |nr p - ranks p|)).sum < tol then nr
    else classicLoopPure g dmp tol fuel nr

/-- Plain iteration of the classic step, without the early exit. -/
def classicIter (g : Graph) (dmp : ℚ) (ranks : Node → ℚ) : ℕ → (Node → ℚ)
  | 0 => ranks
  | k + 1 => classicStepPure g dmp (classicIter g dmp ranks k)

/-- One iteration of `topic_pagerank` as a pure function of the previous
ranks, with the reverse index taken from the unmutated graph. -/
def tprStepPure (g : Graph) (vf : Node → ℚ) (dmp : ℚ) (ranks : Node → ℚ) : Node → ℚ :=
  tprNewRanks vf dmp (degGetOf g) (incSpec g)
    (danglingSum (gkeys g) (degGetOf g) ranks) ranks

/-- Pure form of `topic_pagerank`'s loop. -/
def tprLoopPure (g : Graph) (vf : Node → ℚ) (dmp tol : ℚ) : ℕ → (Node → ℚ) → (Node → ℚ)
  | 0, ranks => ranks
  | fuel + 1, ranks =>
    let nr := tprStepPure g vf dmp ranks
    if ((gkeys g).map (fun n => |nr n - ranks n|)).sum < tol then nr
    else tprLoopPure g vf dmp tol fuel nr

/-- Plain iteration of the topic step, without the early exit. -/
def tprIter (g : Graph) (vf : Node → ℚ) (dmp : ℚ) (ranks : Node → ℚ) : ℕ → (Node → ℚ)
  | 0 => ranks
  | k + 1 => tprStepPure g vf dmp (tprIter g vf dmp ranks k)

/-! ### Basic lemmas about the dict model -/

theorem gkeys_cons (e : Node × List Node) (g : Graph) : gkeys (e :: g) = e.1 :: gkeys g := rfl

theorem updFn_same {α : Type} (f : Node → α) (x : Node) (v : α) : updFn f x v x = v := by
  simp [updFn]

theorem updFn_other {α : Type} (f : Node → α) (x y : Node) (v : α) (h : y ≠ x) :
    updFn f x v y = f y := by
  simp [updFn, h]

theorem mem_gkeys_of_mem {g : Graph} {e : Node × List Node} (he : e ∈ g) : e.1 ∈ gkeys g :=
  List.mem_map.mpr ⟨e, he, rfl⟩

theorem glookup_nodup {g : Graph} (hnd : (gkeys g).Nodup) {e : Node × List Node} (he : e ∈ g) :
    glookup g e.1 = some e.2 := by
  induction g with
  | nil => cases he
  | cons a rest ih =>
    rw [gkeys_cons, List.nodup_cons] at hnd
    rcases List.mem_cons.mp he with h | h
    · subst h; simp [glookup]
    · have hne : a.1 ≠ e.1 := by
        intro hc
        exact hnd.1 (hc ▸ mem_gkeys_of_mem h)
      rw [glookup, if_neg hne]
      exact ih hnd.2 h

theorem getOuts_nodup {g : Graph} (hnd : (gkeys g).Nodup) {e : Node × List Node} (he : e ∈ g) :
    getOuts g e.1 = e.2 := by
  rw [getOuts, glookup_nodup hnd he]; rfl

theorem degGetOf_entry {g : Graph} (hnd : (gkeys g).Nodup) {e : Node × List Node} (he : e ∈ g) :
    degGetOf g e.1 = e.2.length := by
  rw [degGetOf, if_pos (mem_gkeys_of_mem he), getOuts_nodup hnd he]

/-! ### List-sum helper lemmas -/

theorem foldl_guard_sum (c : Node → Prop) [DecidablePred c] (f : Node → ℚ) :
    ∀ (l : List Node) (a : ℚ),
      l.foldl (fun s q => if c q then s + f q else s) a
        = a + (l.map (fun q => if c q then f q else 0)).sum := by
  intro l
  induction l with
  | nil => intro a; simp
  | cons x t ih =>
    intro a
    by_cases hx : c x
    · simp only [List.foldl_cons, List.map_cons, List.sum_cons, if_pos hx]
      rw [ih]; ring
    · simp only [List.foldl_cons, List.map_cons, List.sum_cons, if_neg hx]
      rw [ih]; ring

theorem sum_map_swap {α β : Type} (l₁ : List α) (l₂ : List β) (F : α → β → ℚ) :
    (l₁.map (fun a => (l₂.map (fun b => F a b)).sum)).sum
      = (l₂.map (fun b => (l₁.map (fun a => F a b)).sum)).sum := by
  induction l₁ with
  | nil => simp
  | cons x t ih =>
    simp only [List.map_cons, List.sum_cons, ih]
    rw [← List.sum_map_add]

theorem sum_indicator_nodup {l : List Node} {a : Node} (hnd : l.Nodup) (ha : a ∈ l) :
    (l.map (fun p => if p = a then (1 : ℚ) else 0)).sum = 1 := by
  induction l with
  | nil => cases ha
  | cons x t ih =>
    rw [List.nodup_cons] at hnd
    rcases List.mem_cons.mp ha with rfl | h
    · simp only [List.map_cons, List.sum_cons, if_pos rfl]
      have ht : (t.map (fun p => if p = a then (1 : ℚ) else 0)).sum = 0 := by
        apply List.sum_eq_zero
        intro y hy
        rcases List.mem_map.mp hy with ⟨p, hp, hpy⟩
        have hpa : p ≠ a := fun hc => hnd.1 (hc ▸ hp)
        simpa [hpa] using hpy.symm
      rw [ht, add_zero]
      simp
    · have hx : x ≠ a := fun hc => hnd.1 (hc ▸ h)
      simp only [List.map_cons, List.sum_cons, if_neg hx, zero_add]
      exact ih hnd.2 h

theorem sum_count_nodup {nodes : List Node} (hnd : nodes.Nodup) :
    ∀ (outs : List Node), (∀ x ∈ outs, x ∈ nodes) →
      (nodes.map (fun p => (outs.count p : ℚ))).sum = outs.length := by
  intro outs
  induction outs with
  | nil => intro _; simp
  | cons o t ih =>
    intro hsub
    rw [List.forall_mem_cons] at hsub
    have hrw : nodes.map (fun p => ((o :: t).count p : ℚ))
        = nodes.map (fun p => (t.count p : ℚ) + if p = o then 1 else 0) := by
      apply List.map_congr_left
      intro p _
      rw [List.count_cons]
      by_cases hpo : p = o
      · simp [hpo]
      · have : ¬ (o = p) := fun hc => hpo hc.symm
        simp [hpo, this]
    rw [hrw, List.sum_map_add, ih hsub.2, sum_indicator_nodup hnd hsub.1]
    simp [add_comm]

/-! ### Characterization of build_incoming_links on closed graphs -/

theorem incSpec_nil (p : Node) : incSpec [] p = [] := rfl

theorem incSpec_cons (e : Node × List Node) (g : Graph) (p : Node) :
    incSpec (e :: g) p = List.replicate (e.2.count p) e.1 ++ incSpec g p := rfl

theorem bilEntry_closed (src : Node) :
    ∀ (outs : List Node) (inc : Node → List Node) (ik : List Node) (g : Graph),
      (∀ t ∈ outs, t ∈ ik) →
      bilEntry src outs inc ik g
        = (fun p => inc p ++ List.replicate (outs.count p) src, ik, g) := by
  intro outs
  induction outs with
  | nil =>
    intro inc ik g _
    simp [bilEntry]
  | cons dst rest ih =>
    intro inc ik g hsub
    rw [List.forall_mem_cons] at hsub
    rw [bilEntry, if_pos hsub.1, ih _ _ _ hsub.2]
    have hfe : (fun p => updFn inc dst (inc dst ++ [src]) p ++ List.replicate (rest.count p) src)
        = fun p => inc p ++ List.replicate ((dst :: rest).count p) src := by
      funext p
      by_cases hp : p = dst
      · subst hp
        rw [updFn_same, List.count_cons, if_pos (by simp), List.replicate_succ,
          List.append_assoc, List.singleton_append]
      · rw [updFn_other _ _ _ _ hp, List.count_cons,
          if_neg (by simpa using fun hc => hp hc.symm), add_zero]
    rw [hfe]

theorem bilGo_closed :
    ∀ (es : List (Node × List Node)) (inc : Node → List Node) (ik : List Node) (g : Graph),
      (∀ e ∈ es, ∀ t ∈ e.2, t ∈ ik) →
      bilGo es inc ik g = (some (fun p => inc p ++ incSpec es p), g) := by
  intro es
  induction es with
  | nil =>
    intro inc ik g _
    simp [bilGo, incSpec]
  | cons e rest ih =>
    intro inc ik g hsub
    rw [List.forall_mem_cons] at hsub
    obtain ⟨src, outs⟩ := e
    rw [bilGo, bilEntry_closed src outs inc ik g hsub.1]
    simp only [if_pos rfl]
    rw [ih _ _ _ hsub.2]
    refine congrArg (fun f => (some f, g)) ?_
    funext p
    rw [incSpec_cons, ← List.append_assoc]

theorem build_incoming_links_closed {g : Graph} (hc : ClosedGraph g) :
    build_incoming_links g = (some (incSpec g, gkeys g), g) := by
  rw [build_incoming_links, bilGo_closed g (fun _ => []) (gkeys g) g hc]
  simp

/-! ### Rewriting the rank-sum fold as a sum over graph entries -/

theorem incSpec_map_sum (h : Node → ℚ) :
    ∀ (es : Graph) (p : Node),
      ((incSpec es p).map h).sum = (es.map (fun e => (e.2.count p : ℚ) * h e.1)).sum := by
  intro es
  induction es with
  | nil => intro p; simp [incSpec]
  | cons e rest ih =>
    intro p
    rw [incSpec_cons, List.map_append, List.sum_append, ih, List.map_replicate,
      List.sum_replicate, nsmul_eq_mul, List.map_cons, List.sum_cons]

theorem rankSumFold_eq (inc : Node → List Node) (degGet : Node → ℕ) (r : Node → ℚ) (p : Node) :
    rankSumFold inc degGet r p
      = ((inc p).map (fun q => if 0 < degGet q then r q / (degGet q : ℚ) else 0)).sum := by
  rw [rankSumFold, foldl_guard_sum (fun q => 0 < degGet q), zero_add]

theorem rankSumFold_spec (g : Graph) (degGet : Node → ℕ) (r : Node → ℚ) (p : Node) :
    rankSumFold (incSpec g) degGet r p
      = (g.map (fun e =>
          (e.2.count p : ℚ) * (if 0 < degGet e.1 then r e.1 / (degGet e.1 : ℚ) else 0))).sum := by
  rw [rankSumFold_eq, incSpec_map_sum]

theorem entry_term_eq {g : Graph} (hnd : (gkeys g).Nodup) (r : Node → ℚ)
    {e : Node × List Node} (he : e ∈ g) (p : Node) :
    (e.2.count p : ℚ) * (if 0 < degGetOf g e.1 then r e.1 / (degGetOf g e.1 : ℚ) else 0)
      = (e.2.count p : ℚ) * (r e.1 / (e.2.length : ℚ)) := by
  rw [degGetOf_entry hnd he]
  by_cases h2 : e.2 = []
  · rw [h2]; simp
  · rw [if_pos (List.length_pos.mpr h2)]

/-! ### Characterization of the classic Step 2 on closed graphs -/

theorem distribDangling_spec (dmp share : ℚ) :
    ∀ (ks : List Node) (nr : Node → ℚ),
      distribDangling dmp share ks nr = fun p => nr p + (ks.count p : ℚ) * (dmp * share) := by
  intro ks
  induction ks with
  | nil => intro nr; funext p; simp [distribDangling]
  | cons k t ih =>
    intro nr
    simp only [distribDangling, List.foldl_cons] at ih ⊢
    rw [ih]
    funext p
    by_cases hp : p = k
    · subst hp
      rw [updFn_same, List.count_cons, if_pos (by simp)]
      push_cast
      ring
    · rw [updFn_other _ _ _ _ hp, List.count_cons,
        if_neg (by simpa using fun hc => hp hc.symm), add_zero]

theorem distribLinks_closed (dmp share : ℚ) (ks : List Node) :
    ∀ (links : List Node) (nr : Node → ℚ), (∀ l ∈ links, l ∈ ks) →
      distribLinks dmp share ks links nr
        = some (fun p => nr p + (links.count p : ℚ) * (dmp * share)) := by
  intro links
  induction links with
  | nil => intro nr _; simp [distribLinks]
  | cons l t ih =>
    intro nr hsub
    rw [List.forall_mem_cons] at hsub
    rw [distribLinks, if_pos hsub.1, ih _ hsub.2]
    refine congrArg some ?_
    funext p
    by_cases hp : p = l
    · subst hp
      rw [updFn_same, List.count_cons, if_pos (by simp)]
      push_cast
      ring
    · rw [updFn_other _ _ _ _ hp, List.count_cons,
        if_neg (by simpa using fun hc => hp hc.symm), add_zero]

theorem classicDistribute_closed (dmp : ℚ) (N : ℕ) (ranks : Node → ℚ) (ks : List Node) :
    ∀ (es : Graph) (nr : Node → ℚ), (∀ e ∈ es, ∀ t ∈ e.2, t ∈ ks) →
      classicDistribute dmp N ranks ks es nr
        = some (fun p => nr p + (es.map (fun e => dmp * classicContrib ks N ranks p e)).sum) := by
  intro es
  induction es with
  | nil => intro nr _; simp [classicDistribute]
  | cons e rest ih =>
    intro nr hsub
    rw [List.forall_mem_cons] at hsub
    obtain ⟨page, links⟩ := e
    by_cases hl : links = []
    · subst hl
      rw [classicDistribute, if_pos rfl, distribDangling_spec, ih _ hsub.2]
      refine congrArg some ?_
      funext p
      have hcc : classicContrib ks N ranks p (page, []) = (ks.count p : ℚ) * (ranks page / (N : ℚ)) := by
        simp [classicContrib]
      simp only [List.map_cons, List.sum_cons, hcc]
      ring
    · rw [classicDistribute, if_neg hl,
        distribLinks_closed dmp (ranks page / (links.length : ℚ)) ks links nr hsub.1]
      show classicDistribute dmp N ranks ks rest
          (fun p => nr p + (links.count p : ℚ) * (dmp * (ranks page / (links.length : ℚ)))) = _
      rw [ih _ hsub.2]
      refine congrArg some ?_
      funext p
      have hcc : classicContrib ks N ranks p (page, links)
          = (links.count p : ℚ) * (ranks page / (links.length : ℚ)) := by
        simp [classicContrib, hl]
      simp only [List.map_cons, List.sum_cons, hcc]
      ring

theorem classicStep_closed {g : Graph} (hc : ClosedGraph g) (dmp : ℚ) (ranks : Node → ℚ) :
    classicStep g dmp ranks = some (classicStepPure g dmp ranks) := by
  rw [classicStep, classicDistribute_closed dmp g.length ranks (gkeys g) g
    (fun _ => (1 - dmp) / (g.length : ℚ)) hc]
  rfl

theorem classicLoop_closed {g : Graph} (hc : ClosedGraph g) (dmp tol : ℚ) :
    ∀ (fuel : ℕ) (ranks : Node → ℚ),
      classicLoop g dmp tol fuel ranks = some (classicLoopPure g dmp tol fuel ranks) := by
  intro fuel
  induction fuel with
  | zero => intro ranks; rfl
  | succ n ih =>
    intro ranks
    rw [classicLoop, classicStep_closed hc]
    show (if ((gkeys g).map (fun p => |classicStepPure g dmp ranks p - ranks p|)).sum < tol
        then some (classicStepPure g dmp ranks)
        else classicLoop g dmp tol n (classicStepPure g dmp ranks)) = _
    by_cases hd : ((gkeys g).map (fun p => |classicStepPure g dmp ranks p - ranks p|)).sum < tol
    · rw [if_pos hd]
      simp only [classicLoopPure]
      rw [if_pos hd]
    · rw [if_neg hd, ih]
      simp only [classicLoopPure]
      rw [if_neg hd]

/-! ### Transfer of the topic loop to its pure form on closed graphs -/

theorem tprLoop_closed {g : Graph} (hc : ClosedGraph g) (vf : Node → ℚ) (dmp tol : ℚ) :
    ∀ (fuel : ℕ) (ranks : Node → ℚ),
      tprLoop (gkeys g) vf dmp tol (degGetOf g) fuel ranks g
        = (some (tprLoopPure g vf dmp tol fuel ranks), g) := by
  intro fuel
  induction fuel with
  | zero => intro ranks; rfl
  | succ n ih =>
    intro ranks
    rw [tprLoop, build_incoming_links_closed hc]
    show (if ((gkeys g).map (fun n => |tprStepPure g vf dmp ranks n - ranks n|)).sum < tol
        then (some (tprStepPure g vf dmp ranks), g)
        else tprLoop (gkeys g) vf dmp tol (degGetOf g) n (tprStepPure g vf dmp ranks) g) = _
    by_cases hd : ((gkeys g).map (fun n => |tprStepPure g vf dmp ranks n - ranks n|)).sum < tol
    · rw [if_pos hd]
      simp only [tprLoopPure]
      rw [if_pos hd]
    · rw [if_neg hd, ih]
      simp only [tprLoopPure]
      rw [if_neg hd]

theorem topic_pagerank_closed {g : Graph} (hc : ClosedGraph g)
    (pages : List (Node × String × String)) (vf : Node → ℚ) (dmp tol : ℚ) (m : ℕ) :
    topic_pagerank g pages vf dmp tol m
      = (some (finalizeRanks (gkeys g)
          (tprLoopPure g vf dmp tol m (fun _ => 1 / ((gkeys g).length : ℚ)))), g) := by
  simp only [topic_pagerank]
  rw [tprLoop_closed hc]

/-! ### The per-iteration formula of the topic solver -/

theorem rankSumFold_formula {g : Graph} (hnd : (gkeys g).Nodup) (r : Node → ℚ) (p : Node) :
    rankSumFold (incSpec g) (degGetOf g) r p
      = ((incSpec g p).map (fun q => r q / ((getOuts g q).length : ℚ))).sum := by
  rw [rankSumFold_spec, incSpec_map_sum]
  refine congrArg List.sum (List.map_congr_left ?_)
  intro e he
  rw [entry_term_eq hnd r he p, getOuts_nodup hnd he]

theorem tprStepPure_formula {g : Graph} (hnd : (gkeys g).Nodup) (vf : Node → ℚ) (dmp : ℚ)
    (r : Node → ℚ) (p : Node) :
    tprStepPure g vf dmp r p
      = (1 - dmp) * vf p
        + dmp * (((incSpec g p).map (fun q => r q / ((getOuts g q).length : ℚ))).sum
            + danglingSum (gkeys g) (degGetOf g) r * vf p) := by
  rw [tprStepPure, tprNewRanks, rankSumFold_formula hnd]

/-! ### Sums over keys versus sums over entries -/

theorem sumOver_gkeys (g : Graph) (f : Node → ℚ) :
    sumOver (gkeys g) f = (g.map (fun e => f e.1)).sum := by
  rw [sumOver, gkeys, List.map_map]
  rfl

theorem danglingSum_entries {g : Graph} (hnd : (gkeys g).Nodup) (r : Node → ℚ) :
    danglingSum (gkeys g) (degGetOf g) r
      = ((g.filter (fun e => e.2.isEmpty)).map (fun e => r e.1)).sum := by
  rw [danglingSum, sumOver]
  have hfm : (gkeys g).filter (fun n => degGetOf g n == 0)
      = (g.filter (fun e => e.2.isEmpty)).map Prod.fst := by
    rw [gkeys, List.filter_map]
    refine congrArg (List.map Prod.fst) ?_
    apply List.filter_congr
    intro e he
    show (degGetOf g (Prod.fst e) == 0) = e.2.isEmpty
    rw [degGetOf_entry hnd he]
    cases h2 : e.2 <;> simp [h2]
  rw [hfm, List.map_map]
  rfl

/-! ### Mass conservation of one iteration -/

theorem sum_rankSumFold {g : Graph} (hc : ClosedGraph g) (hnd : (gkeys g).Nodup) (r : Node → ℚ) :
    sumOver (gkeys g) (fun p => rankSumFold (incSpec g) (degGetOf g) r p)
      + danglingSum (gkeys g) (degGetOf g) r
      = sumOver (gkeys g) r := by
  have hA : sumOver (gkeys g) (fun p => rankSumFold (incSpec g) (degGetOf g) r p)
      = (g.map (fun e => if e.2.isEmpty then 0 else r e.1)).sum := by
    rw [sumOver]
    have h1 : (gkeys g).map (fun p => rankSumFold (incSpec g) (degGetOf g) r p)
        = (gkeys g).map (fun p => (g.map (fun e =>
            (e.2.count p : ℚ)
              * (if 0 < degGetOf g e.1 then r e.1 / (degGetOf g e.1 : ℚ) else 0))).sum) := by
      apply List.map_congr_left
      intro p _
      rw [rankSumFold_spec]
    rw [h1, sum_map_swap]
    apply congrArg List.sum
    apply List.map_congr_left
    intro e he
    rw [List.sum_map_mul_right, sum_count_nodup hnd e.2 (fun t ht => hc e he t ht)]
    rw [degGetOf_entry hnd he]
    cases h2 : e.2 with
    | nil => simp
    | cons x xs =>
      have hlen : (0 : ℕ) < (x :: xs).length := by simp
      rw [if_pos hlen]
      have hne : ((x :: xs).length : ℚ) ≠ 0 := Nat.cast_ne_zero.mpr hlen.ne'
      simp only [List.isEmpty_cons, Bool.false_eq_true, if_false]
      field_simp
  have hB := danglingSum_entries hnd r
  rw [hA, hB, sumOver_gkeys]
  have hsplit := List.sum_map_filter_add_sum_map_filter_not
    (fun e : Node × List Node => e.2.isEmpty = true) (fun e => r e.1) g
  have hzero : ((g.filter (fun e => decide (e.2.isEmpty = true))).map
      (fun e => if e.2.isEmpty then 0 else r e.1)).sum = 0 := by
    apply List.sum_eq_zero
    intro x hx
    rcases List.mem_map.mp hx with ⟨e, he, hex⟩
    have : e.2.isEmpty = true := by
      have := List.of_mem_filter he
      simpa using this
    rw [← hex, this]
    simp
  have hsplit2 := List.sum_map_filter_add_sum_map_filter_not
    (fun e : Node × List Node => e.2.isEmpty = true)
    (fun e => if e.2.isEmpty then 0 else r e.1) g
  have hnotpart : ((g.filter (fun e => decide ¬e.2.isEmpty = true)).map
      (fun e => if e.2.isEmpty then 0 else r e.1)).sum
      = ((g.filter (fun e => decide ¬e.2.isEmpty = true)).map (fun e => r e.1)).sum := by
    apply congrArg List.sum
    apply List.map_congr_left
    intro e he
    have : ¬ e.2.isEmpty = true := by
      have := List.of_mem_filter he
      simpa using this
    simp [this]
  have hmain : (g.map (fun e => if e.2.isEmpty then 0 else r e.1)).sum
      = ((g.filter (fun e => decide ¬e.2.isEmpty = true)).map (fun e => r e.1)).sum := by
    rw [← hsplit2, hzero, zero_add, hnotpart]
  rw [hmain]
  have hfilter_eq : (g.filter (fun e => e.2.isEmpty)) = (g.filter (fun e => decide (e.2.isEmpty = true))) := by
    apply List.filter_congr
    intro e _
    cases e.2 <;> simp
  rw [hfilter_eq, ← hsplit]
  ring

theorem sumOver_tprStepPure {g : Graph} (hc : ClosedGraph g) (hnd : (gkeys g).Nodup)
    (vf : Node → ℚ) (dmp : ℚ) (r : Node → ℚ) (hv : sumOver (gkeys g) vf = 1) :
    sumOver (gkeys g) (tprStepPure g vf dmp r) = (1 - dmp) + dmp * sumOver (gkeys g) r := by
  have hfun : ∀ p ∈ gkeys g, tprStepPure g vf dmp r p
      = (1 - dmp) * vf p + (dmp * rankSumFold (incSpec g) (degGetOf g) r p
          + (dmp * danglingSum (gkeys g) (degGetOf g) r) * vf p) := by
    intro p _
    rw [tprStepPure, tprNewRanks]
    ring
  rw [sumOver, List.map_congr_left hfun, List.sum_map_add, List.sum_map_add,
    List.sum_map_mul_left, List.sum_map_mul_left, List.sum_map_mul_left]
  have hv' : ((gkeys g).map vf).sum = 1 := hv
  have hRS := sum_rankSumFold hc hnd r
  rw [sumOver, sumOver] at hRS
  rw [hv']
  have hgoal : ((gkeys g).map (fun p => rankSumFold (incSpec g) (degGetOf g) r p)).sum
      = ((gkeys g).map r).sum - danglingSum (gkeys g) (degGetOf g) r := by
    linarith [hRS]
  rw [hgoal, sumOver]
  ring

theorem sumOver_tprLoopPure {g : Graph} (hc : ClosedGraph g) (hnd : (gkeys g).Nodup)
    (vf : Node → ℚ) (dmp tol : ℚ) (hv : sumOver (gkeys g) vf = 1) :
    ∀ (fuel : ℕ) (r : Node → ℚ), sumOver (gkeys g) r = 1 →
      sumOver (gkeys g) (tprLoopPure g vf dmp tol fuel r) = 1 := by
  intro fuel
  induction fuel with
  | zero => intro r hr; exact hr
  | succ n ih =>
    intro r hr
    have hstep : sumOver (gkeys g) (tprStepPure g vf dmp r) = 1 := by
      rw [sumOver_tprStepPure hc hnd vf dmp r hv, hr]
      ring
    simp only [tprLoopPure]
    split
    · exact hstep
    · exact ih _ hstep

theorem sum_classicContrib {g : Graph} (hc : ClosedGraph g) (hnd : (gkeys g).Nodup)
    (hne : g ≠ []) (r : Node → ℚ) {e : Node × List Node} (he : e ∈ g) :
    ((gkeys g).map (fun p => classicContrib (gkeys g) g.length r p e)).sum = r e.1 := by
  by_cases h2 : e.2 = []
  · have : ∀ p ∈ gkeys g, classicContrib (gkeys g) g.length r p e
        = ((gkeys g).count p : ℚ) * (r e.1 / (g.length : ℚ)) := by
      intro p _
      rw [classicContrib, if_pos h2]
    rw [List.map_congr_left this, List.sum_map_mul_right,
      sum_count_nodup hnd (gkeys g) (fun t ht => ht)]
    have hlen : (gkeys g).length = g.length := by
      rw [gkeys, List.length_map]
    rw [hlen]
    have hN : ((g.length : ℕ) : ℚ) ≠ 0 :=
      Nat.cast_ne_zero.mpr (List.length_pos.mpr hne).ne'
    field_simp
  · have : ∀ p ∈ gkeys g, classicContrib (gkeys g) g.length r p e
        = ((e.2.count p : ℚ)) * (r e.1 / (e.2.length : ℚ)) := by
      intro p _
      rw [classicContrib, if_neg h2]
    rw [List.map_congr_left this, List.sum_map_mul_right,
      sum_count_nodup hnd e.2 (fun t ht => hc e he t ht)]
    have hL : ((e.2.length : ℕ) : ℚ) ≠ 0 :=
      Nat.cast_ne_zero.mpr (List.length_pos.mpr h2).ne'
    field_simp

theorem sumOver_classicStepPure {g : Graph} (hc : ClosedGraph g) (hnd : (gkeys g).Nodup)
    (hne : g ≠ []) (dmp : ℚ) (r : Node → ℚ) :
    sumOver (gkeys g) (classicStepPure g dmp r) = (1 - dmp) + dmp * sumOver (gkeys g) r := by
  rw [sumOver]
  have hfun : (gkeys g).map (classicStepPure g dmp r)
      = (gkeys g).map (fun p => (1 - dmp) / (g.length : ℚ)
          + (g.map (fun e => dmp * classicContrib (gkeys g) g.length r p e)).sum) := rfl
  rw [hfun, List.sum_map_add]
  have hconst : ((gkeys g).map (fun _ => (1 - dmp) / (g.length : ℚ))).sum
      = ((gkeys g).length : ℚ) * ((1 - dmp) / (g.length : ℚ)) := by
    rw [List.map_const', List.sum_replicate, nsmul_eq_mul]
  have hlen : (gkeys g).length = g.length := by
    rw [gkeys, List.length_map]
  have hN : ((g.length : ℕ) : ℚ) ≠ 0 :=
    Nat.cast_ne_zero.mpr (List.length_pos.mpr hne).ne'
  have hfirst : ((gkeys g).map (fun _ => (1 - dmp) / (g.length : ℚ))).sum = 1 - dmp := by
    rw [hconst, hlen]
    field_simp
  rw [hfirst, sum_map_swap]
  have hsecond : (g.map (fun e =>
      ((gkeys g).map (fun p => dmp * classicContrib (gkeys g) g.length r p e)).sum)).sum
      = (g.map (fun e => dmp * r e.1)).sum := by
    apply congrArg List.sum
    apply List.map_congr_left
    intro e he
    rw [List.sum_map_mul_left, sum_classicContrib hc hnd hne r he]
  rw [hsecond, List.sum_map_mul_left, sumOver_gkeys]

theorem sumOver_classicLoopPure {g : Graph} (hc : ClosedGraph g) (hnd : (gkeys g).Nodup)
    (hne : g ≠ []) (dmp tol : ℚ) :
    ∀ (fuel : ℕ) (r : Node → ℚ), sumOver (gkeys g) r = 1 →
      sumOver (gkeys g) (classicLoopPure g dmp tol fuel r) = 1 := by
  intro fuel
  induction fuel with
  | zero => intro r hr; exact hr
  | succ n ih =>
    intro r hr
    have hstep : sumOver (gkeys g) (classicStepPure g dmp r) = 1 := by
      rw [sumOver_classicStepPure hc hnd hne dmp r, hr]
      ring
    simp only [classicLoopPure]
    split
    · exact hstep
    · exact ih _ hstep

/-! ### Pointwise equivalence of the two solvers under a uniform vector -/

theorem sum_map_ite_filter {α : Type} (P : α → Bool) (F : α → ℚ) (l : List α) :
    (l.map (fun e => if P e then F e else 0)).sum = ((l.filter P).map F).sum := by
  induction l with
  | nil => simp
  | cons x t ih =>
    by_cases hx : P x
    · simp [hx, ih]
    · simp [hx, ih]

theorem step_equiv {g : Graph} (hc : ClosedGraph g) (hnd : (gkeys g).Nodup)
    (vf : Node → ℚ) (dmp : ℚ) (hvf : ∀ p ∈ gkeys g, vf p = 1 / (g.length : ℚ))
    (r1 r2 : Node → ℚ) (hr : ∀ p ∈ gkeys g, r1 p = r2 p) :
    ∀ p ∈ gkeys g, classicStepPure g dmp r1 p = tprStepPure g vf dmp r2 p := by
  intro p hp
  simp only [classicStepPure, tprStepPure, tprNewRanks]
  rw [rankSumFold_spec, hvf p hp, danglingSum_entries hnd r2]
  have hsplit : ∀ e ∈ g, dmp * classicContrib (gkeys g) g.length r1 p e
      = dmp * ((e.2.count p : ℚ)
            * (if 0 < degGetOf g e.1 then r2 e.1 / (degGetOf g e.1 : ℚ) else 0))
        + (if e.2.isEmpty then dmp * (r2 e.1 / (g.length : ℚ)) else 0) := by
    intro e he
    rw [classicContrib, degGetOf_entry hnd he, hr e.1 (mem_gkeys_of_mem he)]
    by_cases h2 : e.2 = []
    · rw [if_pos h2, List.count_eq_one_of_mem hnd hp, h2]
      simp
    · rw [if_neg h2, if_pos (List.length_pos.mpr h2)]
      have hie : e.2.isEmpty = false := by
        cases h3 : e.2
        · exact absurd h3 h2
        · rfl
      rw [hie]
      simp
  rw [List.map_congr_left hsplit, List.sum_map_add, List.sum_map_mul_left]
  have hite : (g.map (fun e => if e.2.isEmpty then dmp * (r2 e.1 / (g.length : ℚ)) else 0)).sum
      = ((g.filter (fun e => e.2.isEmpty)).map
          (fun e => dmp * (r2 e.1 / (g.length : ℚ)))).sum :=
    sum_map_ite_filter _ _ g
  rw [hite]
  have hpull : ((g.filter (fun e => e.2.isEmpty)).map
      (fun e => dmp * (r2 e.1 / (g.length : ℚ)))).sum
      = ((g.filter (fun e => e.2.isEmpty)).map (fun e => r2 e.1)).sum
          * (dmp / (g.length : ℚ)) := by
    rw [← List.sum_map_mul_right]
    apply congrArg List.sum
    apply List.map_congr_left
    intro e _
    ring
  rw [hpull]
  ring

theorem loop_equiv {g : Graph} (hc : ClosedGraph g) (hnd : (gkeys g).Nodup)
    (vf : Node → ℚ) (dmp tol : ℚ) (hvf : ∀ p ∈ gkeys g, vf p = 1 / (g.length : ℚ)) :
    ∀ (fuel : ℕ) (r1 r2 : Node → ℚ), (∀ p ∈ gkeys g, r1 p = r2 p) →
      ∀ p ∈ gkeys g,
        classicLoopPure g dmp tol fuel r1 p = tprLoopPure g vf dmp tol fuel r2 p := by
  intro fuel
  induction fuel with
  | zero => intro r1 r2 hr; exact hr
  | succ n ih =>
    intro r1 r2 hr
    have hstep := step_equiv hc hnd vf dmp hvf r1 r2 hr
    have hdiff : ((gkeys g).map (fun q => |classicStepPure g dmp r1 q - r1 q|)).sum
        = ((gkeys g).map (fun q => |tprStepPure g vf dmp r2 q - r2 q|)).sum := by
      apply congrArg List.sum
      apply List.map_congr_left
      intro q hq
      rw [hstep q hq, hr q hq]
    intro p hp
    simp only [classicLoopPure, tprLoopPure]
    rw [hdiff]
    by_cases hd : ((gkeys g).map (fun q => |tprStepPure g vf dmp r2 q - r2 q|)).sum < tol
    · rw [if_pos hd, if_pos hd]
      exact hstep p hp
    · rw [if_neg hd, if_neg hd]
      exact ih _ _ hstep p hp

/-! ### Full equivalence of the two solvers under a uniform vector -/

theorem sumOver_const_one {g : Graph} (hne : g ≠ []) :
    sumOver (gkeys g) (fun _ => 1 / (g.length : ℚ)) = 1 := by
  rw [sumOver, List.map_const', List.sum_replicate, nsmul_eq_mul, gkeys, List.length_map]
  have hN : ((g.length : ℕ) : ℚ) ≠ 0 := Nat.cast_ne_zero.mpr (List.length_pos.mpr hne).ne'
  field_simp

theorem solvers_equiv {g : Graph} (hc : ClosedGraph g) (hnd : (gkeys g).Nodup) (hne : g ≠ [])
    (pages : List (Node × String × String)) (vf : Node → ℚ) (dmp tol : ℚ) (m : ℕ)
    (hvf : ∀ p ∈ gkeys g, vf p = 1 / (g.length : ℚ)) :
    topic_pagerank g pages vf dmp tol m = (page_rank g dmp m tol, g) := by
  rw [topic_pagerank_closed hc, page_rank, classicLoop_closed hc]
  have hinit : (fun _ : Node => 1 / ((gkeys g).length : ℚ))
      = (fun _ : Node => 1 / (g.length : ℚ)) := by
    funext x
    rw [gkeys, List.length_map]
  rw [hinit]
  simp only [Option.map_some']
  refine congrArg (fun x => (some x, g)) ?_
  have hsumv : sumOver (gkeys g) vf = 1 := by
    have heq : sumOver (gkeys g) vf = sumOver (gkeys g) (fun _ => 1 / (g.length : ℚ)) := by
      rw [sumOver, sumOver]
      exact congrArg List.sum (List.map_congr_left hvf)
    rw [heq]
    exact sumOver_const_one hne
  have hs : sumOver (gkeys g)
      (tprLoopPure g vf dmp tol m (fun _ => 1 / (g.length : ℚ))) = 1 :=
    sumOver_tprLoopPure hc hnd vf dmp tol hsumv m _ (sumOver_const_one hne)
  simp only [finalizeRanks]
  rw [hs, if_pos (by norm_num : (0 : ℚ) < 1)]
  apply List.map_congr_left
  intro p hp
  have hpt := loop_equiv hc hnd vf dmp tol hvf m (fun _ => 1 / (g.length : ℚ))
    (fun _ => 1 / (g.length : ℚ)) (fun _ _ => rfl) p hp
  rw [div_one]
  exact congrArg (Prod.mk p) hpt.symm

/-! ### The loop computes a bounded number of plain iterations -/

theorem tprIter_shift (g : Graph) (vf : Node → ℚ) (dmp : ℚ) (r : Node → ℚ) :
    ∀ k, tprIter g vf dmp (tprStepPure g vf dmp r) k = tprIter g vf dmp r (k + 1) := by
  intro k
  induction k with
  | zero => rfl
  | succ n ih =>
    simp only [tprIter]
    rw [ih]
    rfl

theorem classicIter_shift (g : Graph) (dmp : ℚ) (r : Node → ℚ) :
    ∀ k, classicIter g dmp (classicStepPure g dmp r) k = classicIter g dmp r (k + 1) := by
  intro k
  induction k with
  | zero => rfl
  | succ n ih =>
    simp only [classicIter]
    rw [ih]
    rfl

theorem tprLoopPure_iter (g : Graph) (vf : Node → ℚ) (dmp tol : ℚ) :
    ∀ (fuel : ℕ) (r : Node → ℚ),
      ∃ k ≤ fuel, tprLoopPure g vf dmp tol fuel r = tprIter g vf dmp r k := by
  intro fuel
  induction fuel with
  | zero => intro r; exact ⟨0, Nat.le_refl 0, rfl⟩
  | succ n ih =>
    intro r
    simp only [tprLoopPure]
    by_cases hd : ((gkeys g).map (fun q => |tprStepPure g vf dmp r q - r q|)).sum < tol
    · rw [if_pos hd]
      exact ⟨1, by omega, rfl⟩
    · rw [if_neg hd]
      obtain ⟨k, hk, heq⟩ := ih (tprStepPure g vf dmp r)
      exact ⟨k + 1, by omega, by rw [heq, tprIter_shift]⟩

theorem classicLoopPure_iter (g : Graph) (dmp tol : ℚ) :
    ∀ (fuel : ℕ) (r : Node → ℚ),
      ∃ k ≤ fuel, classicLoopPure g dmp tol fuel r = classicIter g dmp r k := by
  intro fuel
  induction fuel with
  | zero => intro r; exact ⟨0, Nat.le_refl 0, rfl⟩
  | succ n ih =>
    intro r
    simp only [classicLoopPure]
    by_cases hd : ((gkeys g).map (fun q => |classicStepPure g dmp r q - r q|)).sum < tol
    · rw [if_pos hd]
      exact ⟨1, by omega, rfl⟩
    · rw [if_neg hd]
      obtain ⟨k, hk, heq⟩ := ih (classicStepPure g dmp r)
      exact ⟨k + 1, by omega, by rw [heq, classicIter_shift]⟩

/-! ### Non-negativity of the recurrences -/

theorem danglingSum_nonneg {g : Graph} (r : Node → ℚ) (hr : ∀ p ∈ gkeys g, 0 ≤ r p) :
    0 ≤ danglingSum (gkeys g) (degGetOf g) r := by
  rw [danglingSum, sumOver]
  apply List.sum_nonneg
  intro x hx
  rcases List.mem_map.mp hx with ⟨p, hp, hpx⟩
  rw [← hpx]
  exact hr p (List.mem_of_mem_filter hp)

theorem tprStepPure_nonneg {g : Graph} (vf : Node → ℚ) (dmp : ℚ) (hd0 : 0 ≤ dmp)
    (hd1 : dmp ≤ 1) (hv : ∀ p ∈ gkeys g, 0 ≤ vf p) (r : Node → ℚ)
    (hr : ∀ p ∈ gkeys g, 0 ≤ r p) :
    ∀ p ∈ gkeys g, 0 ≤ tprStepPure g vf dmp r p := by
  intro p hp
  simp only [tprStepPure, tprNewRanks]
  have h1 : 0 ≤ rankSumFold (incSpec g) (degGetOf g) r p := by
    rw [rankSumFold_spec]
    apply List.sum_nonneg
    intro x hx
    rcases List.mem_map.mp hx with ⟨e, he, hex⟩
    rw [← hex]
    apply mul_nonneg (by positivity)
    by_cases hdq : 0 < degGetOf g e.1
    · rw [if_pos hdq]
      exact div_nonneg (hr e.1 (mem_gkeys_of_mem he)) (by positivity)
    · rw [if_neg hdq]
  have h2 := danglingSum_nonneg r hr
  have h3 := hv p hp
  have h4 : 0 ≤ (1 - dmp) * vf p := mul_nonneg (by linarith) h3
  have h5 : 0 ≤ dmp * (rankSumFold (incSpec g) (degGetOf g) r p
      + danglingSum (gkeys g) (degGetOf g) r * vf p) :=
    mul_nonneg hd0 (add_nonneg h1 (mul_nonneg h2 h3))
  linarith

theorem classicStepPure_nonneg {g : Graph} (dmp : ℚ) (hd0 : 0 ≤ dmp) (hd1 : dmp ≤ 1)
    (r : Node → ℚ) (hr : ∀ p ∈ gkeys g, 0 ≤ r p) :
    ∀ p, 0 ≤ classicStepPure g dmp r p := by
  intro p
  simp only [classicStepPure]
  have h1 : 0 ≤ (1 - dmp) / (g.length : ℚ) := div_nonneg (by linarith) (by positivity)
  have h2 : 0 ≤ (g.map (fun e => dmp * classicContrib (gkeys g) g.length r p e)).sum := by
    apply List.sum_nonneg
    intro x hx
    rcases List.mem_map.mp hx with ⟨e, he, hex⟩
    rw [← hex]
    apply mul_nonneg hd0
    rw [classicContrib]
    by_cases h2 : e.2 = []
    · rw [if_pos h2]
      exact mul_nonneg (by positivity)
        (div_nonneg (hr e.1 (mem_gkeys_of_mem he)) (by positivity))
    · rw [if_neg h2]
      exact mul_nonneg (by positivity)
        (div_nonneg (hr e.1 (mem_gkeys_of_mem he)) (by positivity))
  linarith

theorem tprIter_nonneg {g : Graph} (vf : Node → ℚ) (dmp : ℚ) (hd0 : 0 ≤ dmp) (hd1 : dmp ≤ 1)
    (hv : ∀ p ∈ gkeys g, 0 ≤ vf p) (r : Node → ℚ) (hr : ∀ p ∈ gkeys g, 0 ≤ r p) :
    ∀ k, ∀ p ∈ gkeys g, 0 ≤ tprIter g vf dmp r k p := by
  intro k
  induction k with
  | zero => exact hr
  | succ n ih =>
    simp only [tprIter]
    exact tprStepPure_nonneg vf dmp hd0 hd1 hv _ ih

theorem classicIter_nonneg {g : Graph} (dmp : ℚ) (hd0 : 0 ≤ dmp) (hd1 : dmp ≤ 1)
    (r : Node → ℚ) (hr : ∀ p ∈ gkeys g, 0 ≤ r p) :
    ∀ k, ∀ p ∈ gkeys g, 0 ≤ classicIter g dmp r k p := by
  intro k
  induction k with
  | zero => exact hr
  | succ n ih =>
    simp only [classicIter]
    intro p _
    exact classicStepPure_nonneg dmp hd0 hd1 _ ih p

/-! ### Behaviour on the empty graph -/

theorem page_rank_empty (dmp : ℚ) (m : ℕ) (tol : ℚ) : page_rank [] dmp m tol = some [] := by
  have hc : ClosedGraph ([] : Graph) := fun e he => absurd he (List.not_mem_nil e)
  rw [page_rank, classicLoop_closed hc, Option.map_some']
  rfl

theorem topic_pagerank_empty (pages : List (Node × String × String)) (vf : Node → ℚ)
    (dmp tol : ℚ) (m : ℕ) : topic_pagerank [] pages vf dmp tol m = (some [], []) := by
  have hc : ClosedGraph ([] : Graph) := fun e he => absurd he (List.not_mem_nil e)
  rw [topic_pagerank_closed hc]
  rfl

theorem build_topic_vector_empty (kws : List String) : build_topic_vector [] kws = [] := rfl

/-! ### The reverse index counts one entry per edge occurrence -/

theorem mem_incSpec {q p : Node} : ∀ {es : Graph}, q ∈ incSpec es p → q ∈ gkeys es := by
  intro es
  induction es with
  | nil => intro h; cases h
  | cons e rest ih =>
    intro h
    rw [incSpec_cons] at h
    rw [gkeys_cons]
    rcases List.mem_append.mp h with h | h
    · exact List.mem_cons.mpr (Or.inl (List.eq_of_mem_replicate h))
    · exact List.mem_cons.mpr (Or.inr (ih h))

theorem incSpec_count {g : Graph} (hnd : (gkeys g).Nodup) (p q : Node) :
    (incSpec g p).count q = (getOuts g q).count p := by
  induction g with
  | nil => rfl
  | cons e rest ih =>
    rw [gkeys_cons, List.nodup_cons] at hnd
    rw [incSpec_cons, List.count_append, List.count_replicate]
    by_cases hq : e.1 = q
    · subst hq
      rw [if_pos (by simp)]
      have hnot : e.1 ∉ incSpec rest p := fun hmem => hnd.1 (mem_incSpec hmem)
      rw [List.count_eq_zero.mpr hnot, add_zero, getOuts, glookup, if_pos rfl]
      rfl
    · have hout : getOuts (e :: rest) q = getOuts rest q := by
        rw [getOuts, getOuts, glookup, if_neg hq]
      rw [if_neg (by simpa using hq), zero_add, ih hnd.2, hout]

/-! ### Properties of the topic-vector builder -/

theorem topicWeight_cases (kws : List String) (e : Node × String × String) :
    topicWeight kws e = 0 ∨ topicWeight kws e = 1 := by
  rw [topicWeight]
  split
  · right; rfl
  · left; rfl

theorem topicWeight_nonneg (kws : List String) (e : Node × String × String) :
    0 ≤ topicWeight kws e := by
  rcases topicWeight_cases kws e with h | h <;> rw [h] <;> norm_num

theorem topicWeight_total_nonneg (pages : List (Node × String × String)) (kws : List String) :
    0 ≤ (pages.map (topicWeight kws)).sum := by
  apply List.sum_nonneg
  intro x hx
  rcases List.mem_map.mp hx with ⟨e, he, hex⟩
  rw [← hex]
  exact topicWeight_nonneg kws e

theorem topicWeight_total_zero_iff (pages : List (Node × String × String)) (kws : List String) :
    (pages.map (topicWeight kws)).sum = 0 ↔ ∀ e ∈ pages, topicWeight kws e = 0 := by
  constructor
  · intro h e he
    by_contra hne
    have h1 : topicWeight kws e ≤ (pages.map (topicWeight kws)).sum := by
      apply List.single_le_sum
      · intro x hx
        rcases List.mem_map.mp hx with ⟨e2, he2, hx2⟩
        rw [← hx2]
        exact topicWeight_nonneg kws e2
      · exact List.mem_map.mpr ⟨e, he, rfl⟩
    have h2 : topicWeight kws e = 1 := (topicWeight_cases kws e).resolve_left hne
    rw [h2, h] at h1
    linarith
  · intro h
    apply List.sum_eq_zero
    intro x hx
    rcases List.mem_map.mp hx with ⟨e, he, hex⟩
    rw [← hex]
    exact h e he

theorem build_topic_vector_pos {pages : List (Node × String × String)} {kws : List String}
    (hpos : (pages.map (topicWeight kws)).sum ≠ 0) :
    build_topic_vector pages kws
      = pages.map (fun e => (e.1, topicWeight kws e / (pages.map (topicWeight kws)).sum)) := by
  rw [build_topic_vector]
  rw [if_neg hpos]

theorem build_topic_vector_zero {pages : List (Node × String × String)} {kws : List String}
    (hz : (pages.map (topicWeight kws)).sum = 0) :
    build_topic_vector pages kws = pages.map (fun e => (e.1, 1 / (pages.length : ℚ))) := by
  rw [build_topic_vector]
  rw [if_pos hz]

/-! ### Extraction of the reverse index returned by build_incoming_links -/

theorem bil_inc_eq {g : Graph} (hc : ClosedGraph g) {inc : Node → List Node} {ks : List Node}
    (hbil : (build_incoming_links g).1 = some (inc, ks)) : inc = incSpec g := by
  rw [build_incoming_links_closed hc] at hbil
  have h2 := Option.some.inj hbil
  exact (congrArg Prod.fst h2).symm

/-! ### Claim theorems -/

/-- C1: on a well-formed graph (every link target a key, keys distinct), with
any teleportation vector, damping 0 ≤ d < 1 and rank vector from the previous
iteration, the new_ranks function built by one topic_pagerank iteration
satisfies, for every node p,
newRank(p) = (1 − d)·teleport(p) + d·(Σ over q in inLinks(p) of
rank(q)/outDegree(q) + danglingMass·teleport(p)), where inLinks(p) is the
reverse index returned by build_incoming_links (one entry per edge occurrence)
and danglingMass is the total rank over nodes of out-degree 0; the dangling
mass is weighted by the same teleportation vector, not split uniformly. -/
theorem C1_topic_step_formula {g : Graph} (hc : ClosedGraph g) (hnd : (gkeys g).Nodup)
    (vf : Node → ℚ) (dmp : ℚ) (hd0 : 0 ≤ dmp) (hd1 : dmp < 1) (ranks : Node → ℚ)
    {inc : Node → List Node} {ks : List Node}
    (hbil : (build_incoming_links g).1 = some (inc, ks)) :
    ∀ p ∈ gkeys g,
      tprNewRanks vf dmp (degGetOf g) inc (danglingSum (gkeys g) (degGetOf g) ranks) ranks p
        = (1 - dmp) * vf p
          + dmp * (((inc p).map (fun q => ranks q / ((getOuts g q).length : ℚ))).sum
              + danglingSum (gkeys g) (degGetOf g) ranks * vf p) := by
  intro p hp
  rw [bil_inc_eq hc hbil]
  exact tprStepPure_formula hnd vf dmp ranks p

/-- C2: on a non-empty graph whose link targets all appear as keys,
topic_pagerank with the uniform teleportation vector (weight 1/N on every
node) returns the same rank mapping as classic page_rank run with the same
damping, tolerance and iteration budget. -/
theorem C2_uniform_equiv {g : Graph} (hc : ClosedGraph g) (hnd : (gkeys g).Nodup)
    (hne : g ≠ []) (pages : List (Node × String × String)) (vf : Node → ℚ)
    (dmp tol : ℚ) (m : ℕ) (hvf : ∀ p ∈ gkeys g, vf p = 1 / (g.length : ℚ)) :
    (topic_pagerank g pages vf dmp tol m).1 = page_rank g dmp m tol := by
  rw [solvers_equiv hc hnd hne pages vf dmp tol m hvf]

/-- C3: evaluation at the failing input. At the two-node cycle with the default
damping and tolerance, classic page_rank returns the bare loop output with no
finalizeRanks normalization applied (pr.py has no final normalization step,
although its own notes say the scores sum to 1 after normalization), while
topic_pagerank returns finalizeRanks of its loop output; in the exact rational
model the un-normalized classic output nevertheless sums to exactly 1, so the
omission is observable only through the floating-point drift the specified
normalization exists to correct. -/
theorem C3_no_final_normalization :
    page_rank [("A", ["B"]), ("B", ["A"])] (17/20) 100 (1/1000000)
      = some ((gkeys [("A", ["B"]), ("B", ["A"])]).map (fun p =>
          (p, classicLoopPure [("A", ["B"]), ("B", ["A"])] (17/20) (1/1000000) 100
            (fun _ => 1 / (([("A", ["B"]), ("B", ["A"])] : Graph).length : ℚ)) p)))
    ∧ topic_pagerank [("A", ["B"]), ("B", ["A"])] [] (fun _ => 1/2) (17/20) (1/1000000) 100
      = (some (finalizeRanks (gkeys [("A", ["B"]), ("B", ["A"])])
          (tprLoopPure [("A", ["B"]), ("B", ["A"])] (fun _ => 1/2) (17/20) (1/1000000) 100
            (fun _ => 1 / ((gkeys [("A", ["B"]), ("B", ["A"])]).length : ℚ)))),
        [("A", ["B"]), ("B", ["A"])])
    ∧ (∃ res, page_rank [("A", ["B"]), ("B", ["A"])] (17/20) 100 (1/1000000) = some res
        ∧ (res.map Prod.snd).sum = 1) := by
  refine ⟨by rw [page_rank, classicLoop_closed (by decide), Option.map_some'],
    topic_pagerank_closed (by decide) [] (fun _ => 1/2) (17/20) (1/1000000) 100, ?_⟩
  refine ⟨(gkeys [("A", ["B"]), ("B", ["A"])]).map (fun p =>
      (p, classicLoopPure [("A", ["B"]), ("B", ["A"])] (17/20) (1/1000000) 100
        (fun _ => 1 / (([("A", ["B"]), ("B", ["A"])] : Graph).length : ℚ)) p)),
    by rw [page_rank, classicLoop_closed (by decide), Option.map_some'], ?_⟩
  rw [List.map_map]
  have hmc : ((gkeys [("A", ["B"]), ("B", ["A"])]).map (Prod.snd ∘ fun p =>
      (p, classicLoopPure [("A", ["B"]), ("B", ["A"])] (17/20) (1/1000000) 100
        (fun _ => 1 / (([("A", ["B"]), ("B", ["A"])] : Graph).length : ℚ)) p))).sum
      = sumOver (gkeys [("A", ["B"]), ("B", ["A"])])
          (classicLoopPure [("A", ["B"]), ("B", ["A"])] (17/20) (1/1000000) 100
            (fun _ => 1 / (([("A", ["B"]), ("B", ["A"])] : Graph).length : ℚ))) := by
    rw [sumOver]
    apply congrArg List.sum
    apply List.map_congr_left
    intro p _
    simp
  rw [hmc]
  exact sumOver_classicLoopPure (by decide) (by decide) (by decide) (17/20) (1/1000000) 100 _
    (sumOver_const_one (by decide))

/-- C4 counterexample: on the graph A → [B] with B not a key, one
topic_pagerank call does not leave the graph unchanged: build_incoming_links
adds B as a new key with an empty outbound list before the iteration aborts,
so the graph after the call is A → [B], B → [] and differs from the input. -/
theorem C4_counterexample :
    (topic_pagerank [("A", ["B"])] [] (fun _ => 1) (17/20) (1/1000000) 100).2
        = [("A", ["B"]), ("B", [])]
    ∧ (topic_pagerank [("A", ["B"])] [] (fun _ => 1) (17/20) (1/1000000) 100).2
        ≠ [("A", ["B"])] := by
  constructor
  · decide
  · decide

/-- C4 amended: on a graph whose link targets all appear as keys, one solve
call leaves the graph unchanged (no keys added, no outbound lists modified),
both for the full topic_pagerank call and for each build_incoming_links
call. -/
theorem C4_graph_unchanged {g : Graph} (hc : ClosedGraph g)
    (pages : List (Node × String × String)) (vf : Node → ℚ) (dmp tol : ℚ) (m : ℕ) :
    (topic_pagerank g pages vf dmp tol m).2 = g ∧ (build_incoming_links g).2 = g := by
  constructor
  · rw [topic_pagerank_closed hc]
  · rw [build_incoming_links_closed hc]

/-- C5: evaluation at the failing input. On the graph A → [B] with B not a
key, classic page_rank raises KeyError (reading new_ranks[B]) and
topic_pagerank raises RuntimeError (the dict changed size while
build_incoming_links iterates graph.items()); neither treats B as a
first-class node. -/
theorem C5_external_target_crashes :
    page_rank [("A", ["B"])] (17/20) 100 (1/1000000) = none
    ∧ (topic_pagerank [("A", ["B"])] [] (fun _ => 1) (17/20) (1/1000000) 100).1 = none := by
  constructor
  · decide
  · decide

/-- C6 counterexample: on the empty graph neither solver nor the vector
builder raises anything; all three return normally with an empty mapping,
so no EmptyGraphError (which does not exist in the code) is raised. -/
theorem C6_counterexample :
    page_rank [] (17/20) 100 (1/1000000) = some []
    ∧ topic_pagerank [] [] (fun _ => 0) (17/20) (1/1000000) 100 = (some [], [])
    ∧ build_topic_vector [] ["ml"] = [] :=
  ⟨page_rank_empty (17/20) 100 (1/1000000),
    topic_pagerank_empty [] (fun _ => 0) (17/20) (1/1000000) 100,
    build_topic_vector_empty ["ml"]⟩

/-- C6 amended: for every damping, tolerance, iteration budget, teleportation
vector and keyword list, the solvers and the vector builder return normally
with the empty mapping on the empty graph; no exception is raised. -/
theorem C6_empty_returns_empty (dmp tol : ℚ) (m : ℕ)
    (pages : List (Node × String × String)) (vf : Node → ℚ) (kws : List String) :
    page_rank [] dmp m tol = some []
    ∧ topic_pagerank [] pages vf dmp tol m = (some [], [])
    ∧ build_topic_vector [] kws = [] :=
  ⟨page_rank_empty dmp m tol, topic_pagerank_empty pages vf dmp tol m,
    build_topic_vector_empty kws⟩

/-- C7: for a non-empty page set, build_topic_vector returns each raw weight
divided by the total when the total is strictly positive; the total is zero
exactly when no page matches any keyword, and in that case the builder
returns exactly the uniform vector assigning 1/N to each page. -/
theorem C7_topic_vector {pages : List (Node × String × String)} {kws : List String}
    (hne : pages ≠ []) :
    (0 < (pages.map (topicWeight kws)).sum →
      build_topic_vector pages kws
        = pages.map (fun e => (e.1, topicWeight kws e / (pages.map (topicWeight kws)).sum)))
    ∧ ((pages.map (topicWeight kws)).sum = 0 ↔ ∀ e ∈ pages, topicWeight kws e = 0)
    ∧ ((pages.map (topicWeight kws)).sum = 0 →
      build_topic_vector pages kws = pages.map (fun e => (e.1, 1 / (pages.length : ℚ)))) := by
  refine ⟨?_, topicWeight_total_zero_iff pages kws, ?_⟩
  · intro hpos
    exact build_topic_vector_pos (ne_of_gt hpos)
  · intro hz
    exact build_topic_vector_zero hz

/-- C8: on a non-empty well-formed graph with tolerance > 0 and an iteration
budget of at least 1, both solvers return normally, and the returned mapping
is the (normalized, for the topic variant) result of at most maxIterations
plain iterations of the respective step function; non-convergence never
raises. -/
theorem C8_bounded_termination {g : Graph} (hc : ClosedGraph g) (hnd : (gkeys g).Nodup)
    (hne : g ≠ []) (pages : List (Node × String × String)) (vf : Node → ℚ)
    (dmp tol : ℚ) (m : ℕ) (htol : 0 < tol) (hm : 1 ≤ m) :
    (∃ r, topic_pagerank g pages vf dmp tol m = (some r, g)
        ∧ ∃ k ≤ m, r = finalizeRanks (gkeys g)
            (tprIter g vf dmp (fun _ => 1 / ((gkeys g).length : ℚ)) k))
    ∧ (∃ res, page_rank g dmp m tol = some res
        ∧ ∃ k ≤ m, res = (gkeys g).map
            (fun p => (p, classicIter g dmp (fun _ => 1 / (g.length : ℚ)) k p))) := by
  constructor
  · refine ⟨finalizeRanks (gkeys g)
      (tprLoopPure g vf dmp tol m (fun _ => 1 / ((gkeys g).length : ℚ))),
      topic_pagerank_closed hc pages vf dmp tol m, ?_⟩
    obtain ⟨k, hk, heq⟩ := tprLoopPure_iter g vf dmp tol m (fun _ => 1 / ((gkeys g).length : ℚ))
    exact ⟨k, hk, by rw [heq]⟩
  · refine ⟨(gkeys g).map (fun p =>
      (p, classicLoopPure g dmp tol m (fun _ => 1 / (g.length : ℚ)) p)),
      by rw [page_rank, classicLoop_closed hc, Option.map_some'], ?_⟩
    obtain ⟨k, hk, heq⟩ := classicLoopPure_iter g dmp tol m (fun _ => 1 / (g.length : ℚ))
    refine ⟨k, hk, ?_⟩
    apply List.map_congr_left
    intro p _
    rw [heq]

/-- C9: on a non-empty well-formed graph with non-negative teleportation
weights and 0 ≤ damping < 1, every node's rank is non-negative at every plain
iteration of either solver, and every score in the final mapping returned by
either solver is non-negative. -/
theorem C9_nonneg {g : Graph} (hc : ClosedGraph g) (hnd : (gkeys g).Nodup) (hne : g ≠ [])
    (pages : List (Node × String × String)) (vf : Node → ℚ) (dmp tol : ℚ) (m : ℕ)
    (hv : ∀ p ∈ gkeys g, 0 ≤ vf p) (hd0 : 0 ≤ dmp) (hd1 : dmp < 1) :
    (∀ k, ∀ p ∈ gkeys g, 0 ≤ tprIter g vf dmp (fun _ => 1 / ((gkeys g).length : ℚ)) k p)
    ∧ (∀ k, ∀ p ∈ gkeys g, 0 ≤ classicIter g dmp (fun _ => 1 / (g.length : ℚ)) k p)
    ∧ (∃ r, topic_pagerank g pages vf dmp tol m = (some r, g) ∧ ∀ e ∈ r, 0 ≤ e.2)
    ∧ (∃ res, page_rank g dmp m tol = some res ∧ ∀ e ∈ res, 0 ≤ e.2) := by
  have hinitnn : ∀ p ∈ gkeys g, 0 ≤ (fun _ : Node => 1 / ((gkeys g).length : ℚ)) p := by
    intro p _
    positivity
  have hinitnn2 : ∀ p ∈ gkeys g, 0 ≤ (fun _ : Node => 1 / (g.length : ℚ)) p := by
    intro p _
    positivity
  have hIterT := tprIter_nonneg vf dmp hd0 hd1.le hv _ hinitnn
  have hIterC := classicIter_nonneg dmp hd0 hd1.le _ hinitnn2
  refine ⟨hIterT, hIterC, ?_, ?_⟩
  · refine ⟨finalizeRanks (gkeys g)
      (tprLoopPure g vf dmp tol m (fun _ => 1 / ((gkeys g).length : ℚ))),
      topic_pagerank_closed hc pages vf dmp tol m, ?_⟩
    obtain ⟨k, hk, heq⟩ := tprLoopPure_iter g vf dmp tol m (fun _ => 1 / ((gkeys g).length : ℚ))
    have hLnn : ∀ p ∈ gkeys g,
        0 ≤ tprLoopPure g vf dmp tol m (fun _ => 1 / ((gkeys g).length : ℚ)) p := by
      intro p hp
      rw [heq]
      exact hIterT k p hp
    intro e he
    simp only [finalizeRanks] at he
    rcases List.mem_map.mp he with ⟨p, hp, hpe⟩
    rw [← hpe]
    by_cases hs : 0 < sumOver (gkeys g)
        (tprLoopPure g vf dmp tol m (fun _ => 1 / ((gkeys g).length : ℚ)))
    · rw [if_pos hs]
      exact div_nonneg (hLnn p hp) hs.le
    · rw [if_neg hs]
      exact hLnn p hp
  · refine ⟨(gkeys g).map (fun p =>
      (p, classicLoopPure g dmp tol m (fun _ => 1 / (g.length : ℚ)) p)),
      by rw [page_rank, classicLoop_closed hc, Option.map_some'], ?_⟩
    obtain ⟨k, hk, heq⟩ := classicLoopPure_iter g dmp tol m (fun _ => 1 / (g.length : ℚ))
    intro e he
    rcases List.mem_map.mp he with ⟨p, hp, hpe⟩
    rw [← hpe, heq]
    exact hIterC k p hp

/-- C10: duplicate targets in an outbound list count separately: the reverse
index stores one entry per edge occurrence (the count of q in incoming(p)
equals the count of p in q's outbound list), classic page_rank adds
damping·rank(q)/outDegree(q) once per occurrence of p in q's list with
outDegree counting duplicates, and the topic solver's rank_sum likewise
weights each source by the multiplicity of the edge. -/
theorem C10_duplicate_edges {g : Graph} (hc : ClosedGraph g) (hnd : (gkeys g).Nodup)
    (dmp : ℚ) (ranks : Node → ℚ) {inc : Node → List Node} {ks : List Node}
    (hbil : (build_incoming_links g).1 = some (inc, ks)) :
    (∀ p q, (inc p).count q = (getOuts g q).count p)
    ∧ (∃ f, classicStep g dmp ranks = some f ∧ ∀ p ∈ gkeys g,
        f p = (1 - dmp) / (g.length : ℚ)
          + (g.map (fun e => if e.2 = [] then dmp * (ranks e.1 / (g.length : ℚ))
              else (e.2.count p : ℚ) * (dmp * (ranks e.1 / (e.2.length : ℚ))))).sum)
    ∧ (∀ p, rankSumFold inc (degGetOf g) ranks p
        = (g.map (fun e => (e.2.count p : ℚ) * (ranks e.1 / (e.2.length : ℚ)))).sum) := by
  have hincs := bil_inc_eq hc hbil
  refine ⟨?_, ?_, ?_⟩
  · intro p q
    rw [hincs]
    exact incSpec_count hnd p q
  · refine ⟨classicStepPure g dmp ranks, classicStep_closed hc dmp ranks, ?_⟩
    intro p hp
    simp only [classicStepPure]
    refine congrArg (fun s => (1 - dmp) / (g.length : ℚ) + s) ?_
    apply congrArg List.sum
    apply List.map_congr_left
    intro e he
    rw [classicContrib]
    by_cases h2 : e.2 = []
    · rw [if_pos h2, if_pos h2, List.count_eq_one_of_mem hnd hp]
      push_cast
      ring
    · rw [if_neg h2, if_neg h2]
      ring
  · intro p
    rw [hincs, rankSumFold_spec]
    apply congrArg List.sum
    apply List.map_congr_left
    intro e he
    exact entry_term_eq hnd ranks he p

/-! ### Witnesses -/

/-- Witness for C1 at the one-node self-loop graph. -/
theorem C1_topic_step_formula_witness :
    ClosedGraph [("A", ["A"])] ∧ (gkeys [("A", ["A"])]).Nodup
    ∧ (0 : ℚ) ≤ 1/2 ∧ (1/2 : ℚ) < 1
    ∧ (build_incoming_links [("A", ["A"])]).1
        = some (incSpec [("A", ["A"])], gkeys [("A", ["A"])])
    ∧ (∀ p ∈ gkeys [("A", ["A"])],
        tprNewRanks (fun _ => 1) (1/2) (degGetOf [("A", ["A"])]) (incSpec [("A", ["A"])])
          (danglingSum (gkeys [("A", ["A"])]) (degGetOf [("A", ["A"])]) (fun _ => 1))
          (fun _ => 1) p
          = (1 - 1/2) * 1
            + (1/2) * (((incSpec [("A", ["A"])] p).map
                (fun q => 1 / ((getOuts [("A", ["A"])] q).length : ℚ))).sum
              + danglingSum (gkeys [("A", ["A"])]) (degGetOf [("A", ["A"])]) (fun _ => 1)
                  * 1)) := by
  refine ⟨by decide, by decide, by norm_num, by norm_num,
    by rw [build_incoming_links_closed (by decide)], ?_⟩
  exact C1_topic_step_formula (by decide) (by decide) (fun _ => 1) (1/2) (by norm_num)
    (by norm_num) (fun _ => 1) (by rw [build_incoming_links_closed (by decide)])

/-- Witness for C2 at a two-node cycle. -/
theorem C2_uniform_equiv_witness :
    ClosedGraph [("A", ["B"]), ("B", ["A"])] ∧ (gkeys [("A", ["B"]), ("B", ["A"])]).Nodup
    ∧ ([("A", ["B"]), ("B", ["A"])] : Graph) ≠ []
    ∧ (∀ p ∈ gkeys [("A", ["B"]), ("B", ["A"])],
        (1/2 : ℚ) = 1 / (([("A", ["B"]), ("B", ["A"])] : Graph).length : ℚ))
    ∧ (topic_pagerank [("A", ["B"]), ("B", ["A"])] [] (fun _ => 1/2) (17/20) (1/1000000) 5).1
        = page_rank [("A", ["B"]), ("B", ["A"])] (17/20) 5 (1/1000000) := by
  refine ⟨by decide, by decide, by decide, by intro p _; norm_num, ?_⟩
  exact C2_uniform_equiv (by decide) (by decide) (by decide) [] (fun _ => 1/2) (17/20)
    (1/1000000) 5 (by intro p _; norm_num)

/-- Witness for C4 at the one-node self-loop graph. -/
theorem C4_graph_unchanged_witness :
    ClosedGraph [("A", ["A"])]
    ∧ ((topic_pagerank [("A", ["A"])] [] (fun _ => 1) (17/20) (1/1000000) 3).2 = [("A", ["A"])]
      ∧ (build_incoming_links [("A", ["A"])]).2 = [("A", ["A"])]) :=
  ⟨by decide, C4_graph_unchanged (by decide) [] (fun _ => 1) (17/20) (1/1000000) 3⟩

/-- Witness for C7 at a one-page list with a matching keyword. -/
theorem C7_topic_vector_witness :
    ([("A", "T", "C")] : List (Node × String × String)) ≠ []
    ∧ ((0 < ([("A", "T", "C")].map (topicWeight ["t"])).sum →
        build_topic_vector [("A", "T", "C")] ["t"]
          = [("A", "T", "C")].map (fun e =>
              (e.1, topicWeight ["t"] e / ([("A", "T", "C")].map (topicWeight ["t"])).sum)))
      ∧ (([("A", "T", "C")].map (topicWeight ["t"])).sum = 0
          ↔ ∀ e ∈ ([("A", "T", "C")] : List (Node × String × String)), topicWeight ["t"] e = 0)
      ∧ (([("A", "T", "C")].map (topicWeight ["t"])).sum = 0 →
        build_topic_vector [("A", "T", "C")] ["t"]
          = [("A", "T", "C")].map (fun e =>
              (e.1, 1 / (([("A", "T", "C")] : List (Node × String × String)).length : ℚ))))) :=
  ⟨by decide, C7_topic_vector (by decide)⟩

/-- Witness for C8 at a two-node cycle. -/
theorem C8_bounded_termination_witness :
    ClosedGraph [("A", ["B"]), ("B", ["A"])] ∧ (gkeys [("A", ["B"]), ("B", ["A"])]).Nodup
    ∧ ([("A", ["B"]), ("B", ["A"])] : Graph) ≠ [] ∧ (0 : ℚ) < 1/1000000 ∧ 1 ≤ 5
    ∧ ((∃ r, topic_pagerank [("A", ["B"]), ("B", ["A"])] [] (fun _ => 1/2)
          (17/20) (1/1000000) 5 = (some r, [("A", ["B"]), ("B", ["A"])])
        ∧ ∃ k ≤ 5, r = finalizeRanks (gkeys [("A", ["B"]), ("B", ["A"])])
            (tprIter [("A", ["B"]), ("B", ["A"])] (fun _ => 1/2) (17/20)
              (fun _ => 1 / ((gkeys [("A", ["B"]), ("B", ["A"])]).length : ℚ)) k))
      ∧ (∃ res, page_rank [("A", ["B"]), ("B", ["A"])] (17/20) 5 (1/1000000) = some res
        ∧ ∃ k ≤ 5, res = (gkeys [("A", ["B"]), ("B", ["A"])]).map
            (fun p => (p, classicIter [("A", ["B"]), ("B", ["A"])] (17/20)
              (fun _ => 1 / (([("A", ["B"]), ("B", ["A"])] : Graph).length : ℚ)) k p)))) := by
  refine ⟨by decide, by decide, by decide, by norm_num, by norm_num, ?_⟩
  exact C8_bounded_termination (by decide) (by decide) (by decide) [] (fun _ => 1/2) (17/20)
    (1/1000000) 5 (by norm_num) (by norm_num)

/-- Witness for C9 at a two-node cycle. -/
theorem C9_nonneg_witness :
    ClosedGraph [("A", ["B"]), ("B", ["A"])] ∧ (gkeys [("A", ["B"]), ("B", ["A"])]).Nodup
    ∧ ([("A", ["B"]), ("B", ["A"])] : Graph) ≠ []
    ∧ (∀ p ∈ gkeys [("A", ["B"]), ("B", ["A"])], (0 : ℚ) ≤ 1/2)
    ∧ (0 : ℚ) ≤ 17/20 ∧ (17/20 : ℚ) < 1
    ∧ ((∀ k, ∀ p ∈ gkeys [("A", ["B"]), ("B", ["A"])],
        0 ≤ tprIter [("A", ["B"]), ("B", ["A"])] (fun _ => 1/2) (17/20)
          (fun _ => 1 / ((gkeys [("A", ["B"]), ("B", ["A"])]).length : ℚ)) k p)
      ∧ (∀ k, ∀ p ∈ gkeys [("A", ["B"]), ("B", ["A"])],
        0 ≤ classicIter [("A", ["B"]), ("B", ["A"])] (17/20)
          (fun _ => 1 / (([("A", ["B"]), ("B", ["A"])] : Graph).length : ℚ)) k p)
      ∧ (∃ r, topic_pagerank [("A", ["B"]), ("B", ["A"])] [] (fun _ => 1/2)
          (17/20) (1/1000000) 5 = (some r, [("A", ["B"]), ("B", ["A"])])
        ∧ ∀ e ∈ r, 0 ≤ e.2)
      ∧ (∃ res, page_rank [("A", ["B"]), ("B", ["A"])] (17/20) 5 (1/1000000) = some res
        ∧ ∀ e ∈ res, 0 ≤ e.2)) := by
  refine ⟨by decide, by decide, by decide, by intro p _; norm_num, by norm_num,
    by norm_num, ?_⟩
  exact C9_nonneg (by decide) (by decide) (by decide) [] (fun _ => 1/2) (17/20)
    (1/1000000) 5 (by intro p _; norm_num) (by norm_num) (by norm_num)

/-- Witness for C10 at a graph with a duplicated edge and a dangling node. -/
theorem C10_duplicate_edges_witness :
    ClosedGraph [("A", ["B", "B"]), ("B", [])]
    ∧ (gkeys [("A", ["B", "B"]), ("B", [])]).Nodup
    ∧ (build_incoming_links [("A", ["B", "B"]), ("B", [])]).1
        = some (incSpec [("A", ["B", "B"]), ("B", [])], gkeys [("A", ["B", "B"]), ("B", [])])
    ∧ ((∀ p q, (incSpec [("A", ["B", "B"]), ("B", [])] p).count q
          = (getOuts [("A", ["B", "B"]), ("B", [])] q).count p)
      ∧ (∃ f, classicStep [("A", ["B", "B"]), ("B", [])] (1/2) (fun _ => 1/2) = some f
        ∧ ∀ p ∈ gkeys [("A", ["B", "B"]), ("B", [])],
          f p = (1 - 1/2) / (([("A", ["B", "B"]), ("B", [])] : Graph).length : ℚ)
            + (([("A", ["B", "B"]), ("B", [])] : Graph).map
                (fun e => if e.2 = []
                  then (1/2) * ((1/2) / (([("A", ["B", "B"]), ("B", [])] : Graph).length : ℚ))
                  else (e.2.count p : ℚ) * ((1/2) * ((1/2) / (e.2.length : ℚ))))).sum)
      ∧ (∀ p, rankSumFold (incSpec [("A", ["B", "B"]), ("B", [])])
            (degGetOf [("A", ["B", "B"]), ("B", [])]) (fun _ => 1/2) p
          = (([("A", ["B", "B"]), ("B", [])] : Graph).map
              (fun e => (e.2.count p : ℚ) * ((1/2) / (e.2.length : ℚ)))).sum)) := by
  refine ⟨by decide, by decide, by rw [build_incoming_links_closed (by decide)], ?_⟩
  exact C10_duplicate_edges (by decide) (by decide) (1/2) (fun _ => 1/2)
    (by rw [build_incoming_links_closed (by decide)])
